import Mathlib

/-!
Shallow embedding of the distributed FMM gravity kernel in
`src/mpisph/tree_gravitation.h` (class `tree_colorer`), together with proofs
of the specified properties of its frontier selection, cell-to-cell (C2C)
traversal, cell-to-particle (C2P) descent and gather reduction.

Modelling conventions:
* `double` is embedded as an element of a linear ordered field `K`
  (instantiated at `ℚ` for executable witnesses and at `ℝ` whenever the
  Euclidean distance `flecsi::distance`, which takes a square root, is
  involved).
* `point_t` (a D-dimensional point, here D = 3 as hard-wired by the tensor
  loops of the source) is embedded as `ℕ → K`; only indices 0,1,2 are
  meaningful, exactly as only `p[0] .. p[2]` are touched by the source.
  The raw `double[9]` / `double[27]` arrays are embedded as `ℕ → K`.
* The external flecsi tree is embedded as `BTree`: a branch carries its id,
  its center of mass (`position`), its bounding box (`bmin`,`bmax`), its
  subtree `mass`, and either resident bodies (leaf) or `1 << dimension = 8`
  children (internal node), matching `tree.child(b,i)` for `i ∈ [0,8)`.
* Element-wise point comparison (`operator<`, `operator>`, `operator==` of
  `flecsi::point` on its D components) is `pLt` / `pEq` below.
-/

/-- A D-dimensional point of reals (D = 3 here); component `i` of `p` is
`p i`, indices `0,1,2` are the meaningful ones. -/
def Point (K : Type) : Type := ℕ → K

/-- Build a concrete point from its three components. -/
def pt {K : Type} [LinearOrderedField K] (x y z : K) : Point K :=
  fun n => if n = 0 then x else if n = 1 then y else if n = 2 then z else 0

/-- `flecsi::point` equality: the D = 3 components coincide. -/
def pEq {K : Type} [LinearOrderedField K] (a b : Point K) : Prop :=
  ∀ i < 3, a i = b i

/-- `flecsi::point` element-wise strict comparison `a < b`
(`a > b` is `pLt b a`). -/
def pLt {K : Type} [LinearOrderedField K] (a b : Point K) : Prop :=
  ∀ i < 3, a i < b i

instance (P : ℕ → Prop) [DecidablePred P] (n : ℕ) : Decidable (∀ k < n, P k) :=
  Nat.decidableBallLT n (fun k _ => P k)

instance {K : Type} [LinearOrderedField K] (a b : Point K) : Decidable (pEq a b) :=
  inferInstanceAs (Decidable (∀ i < 3, a i = b i))

instance {K : Type} [LinearOrderedField K] (a b : Point K) : Decidable (pLt a b) :=
  inferInstanceAs (Decidable (∀ i < 3, a i < b i))

/-- A simulation body (particle): the core reads `getPosition`, `getMass`,
`is_local`, and reads/writes `getAcceleration`/`setAcceleration`. -/
structure Body (K : Type) where
  pos : Point K
  mass : K
  acc : Point K
  isLocal : Bool

/-- The local tree (`branch_t` nodes of `tree_topology_t`): a branch exposes
`id()`, `getPosition()` (center of mass), `getBMin()`, `getBMax()`,
`getMass()`, `is_leaf()`; a leaf holds its bodies, an internal branch has
`1 << dimension = 8` children (`tree.child(b, i)`). -/
inductive BTree (K : Type) : Type where
  | leaf (id : ℕ) (pos bmin bmax : Point K) (mass : K) (bodies : List (Body K))
  | node (id : ℕ) (pos bmin bmax : Point K) (mass : K) (children : Fin 8 → BTree K)

namespace BTree

/-- `branch->id()` -/
def idOf {K : Type} : BTree K → ℕ
  | .leaf i _ _ _ _ _ => i
  | .node i _ _ _ _ _ => i

/-- `branch->getPosition()` (the branch's center of mass) -/
def posOf {K : Type} : BTree K → Point K
  | .leaf _ p _ _ _ _ => p
  | .node _ p _ _ _ _ => p

/-- `branch->getBMin()` -/
def bminOf {K : Type} : BTree K → Point K
  | .leaf _ _ bn _ _ _ => bn
  | .node _ _ bn _ _ _ => bn

/-- `branch->getBMax()` -/
def bmaxOf {K : Type} : BTree K → Point K
  | .leaf _ _ _ bx _ _ => bx
  | .node _ _ _ bx _ _ => bx

/-- `branch->getMass()` (subtree mass, 0 for non-local branches) -/
def massOf {K : Type} : BTree K → K
  | .leaf _ _ _ _ m _ => m
  | .node _ _ _ _ m _ => m

end BTree

open BTree

/-- The transport record `mpi_cell_t`: position, force `fc`, Jacobian
`dfcdr[9]`, Hessian `dfcdrdr[27]`, bounding box, branch id. -/
structure MpiCell (K : Type) where
  position : Point K
  fc : Point K
  dfcdr : ℕ → K
  dfcdrdr : ℕ → K
  bmax : Point K
  bmin : Point K
  id : ℕ

/-- The `mpi_cell_t(position,bmin,bmax,id)` constructor: tensor fields are
zero-initialized (`point_t fc = {}; double dfcdr[9] = {}; ...`). -/
def mpiCellOf {K : Type} [LinearOrderedField K] (b : BTree K) : MpiCell K :=
  { position := posOf b
    fc := fun _ => 0
    dfcdr := fun _ => 0
    dfcdrdr := fun _ => 0
    bmax := bmaxOf b
    bmin := bminOf b
    id := idOf b }

/-- The recursive `traverse` lambda of `mpi_exchange_cells` (named `traverseCells` here since `traverse` clashes with a Mathlib name): skip zero-mass
(non-local) branches; emit a cell for a leaf or for a branch whose mass is
below `maxMass`; otherwise recurse into the `1 << dimension = 8` children in
index order.  The emitted list is instrumented with ghost data used only to
state the frontier properties: the tree path of the emitted branch (list of
child indices from the root) and the emitted branch itself; the cell the
source pushes is `mpiCellOf` of that branch. -/
def traverseCells {K : Type} [LinearOrderedField K] (maxMass : K) (path : List ℕ) :
    BTree K → List (List ℕ × BTree K)
  | .leaf i p bn bx m bs =>
      if m = 0 then [] else [(path, .leaf i p bn bx m bs)]
  | .node i p bn bx m ch =>
      if m = 0 then []
      else if m < maxMass then [(path, .node i p bn bx m ch)]
      else
        traverseCells maxMass (path ++ [0]) (ch 0) ++
        traverseCells maxMass (path ++ [1]) (ch 1) ++
        traverseCells maxMass (path ++ [2]) (ch 2) ++
        traverseCells maxMass (path ++ [3]) (ch 3) ++
        traverseCells maxMass (path ++ [4]) (ch 4) ++
        traverseCells maxMass (path ++ [5]) (ch 5) ++
        traverseCells maxMass (path ++ [6]) (ch 6) ++
        traverseCells maxMass (path ++ [7]) (ch 7)

/-- The `vcells` list built by `mpi_exchange_cells`: the cells of the local
mass frontier, in depth-first pre-order. -/
def mpi_exchange_cells {K : Type} [LinearOrderedField K] (maxMass : K)
    (t : BTree K) : List (MpiCell K) :=
  (traverseCells maxMass [] t).map (fun pc => mpiCellOf pc.2)

/-- `flecsi::distance`: the Euclidean distance between two D = 3 points. -/
noncomputable def pdist (a b : Point ℝ) : ℝ :=
  Real.sqrt (∑ i ∈ Finset.range 3, (a i - b i) ^ 2)

/-- The three tensor accumulators threaded through the C2C traversal: the
force `fc`, the Jacobian `jacobi` (`dfcdr`, row-major 3×3) and the Hessian
`hessian` (`dfcdrdr`, row-major 3×3×3). -/
structure Accum (K : Type) where
  fc : Point K
  jacobi : ℕ → K
  hessian : ℕ → K

/-- The all-zero accumulator (`fc = {}; dfcdr[9] = {}; dfcdrdr[27] = {}`). -/
def accZero {K : Type} [LinearOrderedField K] : Accum K :=
  { fc := fun _ => 0, jacobi := fun _ => 0, hessian := fun _ => 0 }

/-- `firstterm` of the Hessian loop of `computeAcceleration`, including the
source's scaling step `if(!(i==j==k)) firstterm *= 3.0;`.  In C++
`i==j==k` parses as `(i==j)==k`, comparing the boolean value of `i==j`
(0 or 1) with `k`; the term is therefore tripled exactly when
`(i==j ? 1 : 0) != k`. -/
def hessFirst {K : Type} [LinearOrderedField K] (r : Point K) (i j k : ℕ) : K :=
  let ft : K := (if i = j then r k else 0) + (if j = k then r i else 0) +
    (if k = i then r j else 0)
  if (if i = j then (1 : ℕ) else 0) = k then ft else 3 * ft

/-- `tree_colorer::computeAcceleration`: the point-mass contribution of a
source at `srcPos` with mass `m` onto the sink at `sinkPos`, accumulated
into `fc`, `jacobi` (slots `i*3+j`, `i,j < 3`) and `hessian` (slots
`i*9+j*3+k`, `i,j,k < 3`).  Slots outside the loop ranges are untouched,
matching the raw `double[9]` / `double[27]` arrays. -/
noncomputable def computeAcceleration (sinkPos srcPos : Point ℝ) (m : ℝ)
    (a : Accum ℝ) : Accum ℝ :=
  let d : ℝ := pdist sinkPos srcPos
  let diffPos : Point ℝ := fun n => sinkPos n - srcPos n
  let jacobicoeff : ℝ := -m / (d * d * d)
  let hessiancoeff : ℝ := -3 * m / (d * d * d * d * d)
  { fc := fun n => a.fc n + (-m / (d * d * d)) * diffPos n
    jacobi := fun n =>
      if n < 9 then
        a.jacobi n + jacobicoeff *
          ((if n / 3 = n % 3 then 1 else 0) -
            3 * diffPos (n / 3) * diffPos (n % 3) / (d * d))
      else a.jacobi n
    hessian := fun n =>
      if n < 27 then
        a.hessian n + hessiancoeff * hessFirst diffPos (n / 9) (n % 9 / 3) (n % 3) +
          hessiancoeff * (-5) / (d * d) * diffPos (n / 9) * diffPos (n % 9 / 3) *
            diffPos (n % 3)
      else a.hessian n }

/-- The sink of a C2C traversal: a `branch_t` reconstructed by
`mpi_compute_fmm` from an `mpi_cell_t` (position, bounding box; the id is
not set — the source line `sink.setId(cell->id)` is commented out). -/
structure Sink where
  pos : Point ℝ
  bmin : Point ℝ
  bmax : Point ℝ
  id : ℕ

/-- `tree_colorer::MAC`: the multipole-acceptance criterion — the Euclidean
diagonal of the source's bounding box over the sink-to-source distance is
below the opening angle. -/
noncomputable def MAC (sink : Sink) (source : BTree ℝ) (macangle : ℝ) : Prop :=
  pdist (bminOf source) (bmaxOf source) / pdist sink.pos (posOf source) < macangle

noncomputable instance (sink : Sink) (source : BTree ℝ) (macangle : ℝ) :
    Decidable (MAC sink source macangle) :=
  inferInstanceAs (Decidable (_ < _))

/-- `tree_colorer::tree_traversal_c2c`.  Returns the updated accumulator
together with the number of `"Same Id"` lines printed (the id test at the
top of the function only logs; it does not return).  A zero-mass source, a
source with the sink's own bounding box, and a source box strictly inside
the sink's box are skipped; a source accepted by the MAC contributes as a
point mass at its center of mass; otherwise a leaf contributes its local
bodies lying outside the sink's box and an internal branch is recursed into
child by child, in index order. -/
noncomputable def tree_traversal_c2c (macangle : ℝ) (sink : Sink) :
    BTree ℝ → Accum ℝ → Accum ℝ × ℕ
  | src, acc =>
    let log0 : ℕ := if sink.id = idOf src then 1 else 0
    if massOf src = 0 then (acc, log0)
    else if pEq sink.bmin (bminOf src) ∧ pEq sink.bmax (bmaxOf src) then (acc, log0)
    else if pLt sink.bmin (bminOf src) ∧ pLt (bmaxOf src) sink.bmax then (acc, log0)
    else if MAC sink src macangle then
      (computeAcceleration sink.pos (posOf src) (massOf src) acc, log0)
    else
      match src with
      | .leaf _ _ _ _ _ bs =>
          (bs.foldl (fun a b =>
            if b.isLocal ∧ ¬(pLt b.pos sink.bmax ∧ pLt sink.bmin b.pos) then
              computeAcceleration sink.pos b.pos b.mass a
            else a) acc, log0)
      | .node _ _ _ _ _ ch =>
          let r0 := tree_traversal_c2c macangle sink (ch 0) acc
          let r1 := tree_traversal_c2c macangle sink (ch 1) r0.1
          let r2 := tree_traversal_c2c macangle sink (ch 2) r1.1
          let r3 := tree_traversal_c2c macangle sink (ch 3) r2.1
          let r4 := tree_traversal_c2c macangle sink (ch 4) r3.1
          let r5 := tree_traversal_c2c macangle sink (ch 5) r4.1
          let r6 := tree_traversal_c2c macangle sink (ch 6) r5.1
          let r7 := tree_traversal_c2c macangle sink (ch 7) r6.1
          (r7.1, log0 + r0.2 + r1.2 + r2.2 + r3.2 + r4.2 + r5.2 + r6.2 + r7.2)

/-- The Taylor evaluation of the body loop of `sink_traversal_c2p` at a body
at position `p`: with `diffPos = p − sinkPosition`, `grav = fc`, then
`grav[i] += jacobi[i*3+j] * diffPos[j]`, then
`tmpMatrix[i*3+j] += diffPos[k] * hessian[i*9+j+k*3]`,
`tmpVector[i] += tmpMatrix[i*3+j] * diffPos[j]`,
`grav[i] += 1/2 * tmpVector[i]` — note the source reads the Hessian at
`i*9 + j + k*3`. -/
def gravAt {K : Type} [LinearOrderedField K] (fc : Point K) (jacobi hessian : ℕ → K)
    (sinkPos p : Point K) : Point K :=
  let diffPos : Point K := fun n => p n - sinkPos n
  let tmpMatrix : ℕ → ℕ → K := fun i j =>
    ∑ k ∈ Finset.range 3, diffPos k * hessian (i * 9 + j + k * 3)
  let tmpVector : ℕ → K := fun i =>
    ∑ j ∈ Finset.range 3, tmpMatrix i j * diffPos j
  fun i =>
    (fc i + ∑ j ∈ Finset.range 3, jacobi (i * 3 + j) * diffPos j) +
      (1 / 2) * tmpVector i

/-- `tree_colorer::sink_traversal_c2p`: descend from the sink branch,
skipping branches with `mass ≤ 0`; at a leaf, every local body gets
`setAcceleration(grav + getAcceleration())` with `grav = gravAt …`, and is
appended to the `neighbors` output (the returned list, in visit order).
Returns the updated subtree together with the collected neighbors. -/
def sink_traversal_c2p {K : Type} [LinearOrderedField K] (sinkPos fc : Point K)
    (jacobi hessian : ℕ → K) : BTree K → BTree K × List (Body K)
  | .leaf i p bn bx m bs =>
      if m ≤ 0 then (.leaf i p bn bx m bs, [])
      else
        (.leaf i p bn bx m (bs.map (fun b =>
          if b.isLocal then
            { b with acc := fun n => gravAt fc jacobi hessian sinkPos b.pos n + b.acc n }
          else b)),
         bs.filter (fun b => b.isLocal))
  | .node i p bn bx m ch =>
      if m ≤ 0 then (.node i p bn bx m ch, [])
      else
        (.node i p bn bx m
          (fun j => (sink_traversal_c2p sinkPos fc jacobi hessian (ch j)).1),
         (sink_traversal_c2p sinkPos fc jacobi hessian (ch 0)).2 ++
         (sink_traversal_c2p sinkPos fc jacobi hessian (ch 1)).2 ++
         (sink_traversal_c2p sinkPos fc jacobi hessian (ch 2)).2 ++
         (sink_traversal_c2p sinkPos fc jacobi hessian (ch 3)).2 ++
         (sink_traversal_c2p sinkPos fc jacobi hessian (ch 4)).2 ++
         (sink_traversal_c2p sinkPos fc jacobi hessian (ch 5)).2 ++
         (sink_traversal_c2p sinkPos fc jacobi hessian (ch 6)).2 ++
         (sink_traversal_c2p sinkPos fc jacobi hessian (ch 7)).2)

/-- The inner loop of the intra-sink direct sum of `mpi_gather_cells`:
`grav += -nb.mass/(dist³) * (bi.pos − nb.pos)` over all `nb` in `subparts`
with `dist > 0`. -/
noncomputable def directAdd (subparts : List (Body ℝ)) (bi : Body ℝ) : Point ℝ :=
  subparts.foldl (fun g nb =>
    if 0 < pdist bi.pos nb.pos then
      fun n => g n +
        (-nb.mass / (pdist bi.pos nb.pos * pdist bi.pos nb.pos * pdist bi.pos nb.pos)) *
          (bi.pos n - nb.pos n)
    else g) (fun _ => 0)

/-- The write-back of the intra-sink direct sum
(`bi->setAcceleration(bi->getAcceleration()+grav)`): the bodies of
`subparts` are exactly the local bodies of the sink subtree reachable
through branches of positive mass (the bodies `sink_traversal_c2p`
collected), so the update revisits the subtree with the same guard. -/
noncomputable def directPhase (subparts : List (Body ℝ)) : BTree ℝ → BTree ℝ
  | .leaf i p bn bx m bs =>
      if m ≤ 0 then .leaf i p bn bx m bs
      else .leaf i p bn bx m (bs.map (fun b =>
        if b.isLocal then { b with acc := fun n => b.acc n + directAdd subparts b n }
        else b))
  | .node i p bn bx m ch =>
      if m ≤ 0 then .node i p bn bx m ch
      else .node i p bn bx m (fun j => directPhase subparts (ch j))

/-- `tree.get(id)` followed by an in-place update: apply `g` to the branch
of the tree whose id is `id` (ids are unique in the source tree; a
non-matching tree is returned unchanged). -/
noncomputable def applyAt (id : ℕ) (g : BTree ℝ → BTree ℝ) : BTree ℝ → BTree ℝ
  | .leaf i p bn bx m bs =>
      if i = id then g (.leaf i p bn bx m bs) else .leaf i p bn bx m bs
  | .node i p bn bx m ch =>
      if i = id then g (.node i p bn bx m ch)
      else .node i p bn bx m (fun j => applyAt id g (ch j))

/-- One iteration of the `mpi_compute_fmm` loop: rebuild the sink branch
from the cell (`setPosition`, `setBMax`, `setBMin`; the id is left unset —
`sink.setId(cell->id)` is commented out in the source, modelled as 0) and
run the C2C traversal from the local root, accumulating into the cell's
tensor fields. -/
noncomputable def computeCell (macangle : ℝ) (tree : BTree ℝ) (c : MpiCell ℝ) :
    MpiCell ℝ :=
  let r := tree_traversal_c2c macangle ⟨c.position, c.bmin, c.bmax, 0⟩ tree
    ⟨c.fc, c.dfcdr, c.dfcdrdr⟩
  { c with fc := r.1.fc, dfcdr := r.1.jacobi, dfcdrdr := r.1.hessian }

/-- The per-cell body of the apply loop of `mpi_gather_cells`: resolve the
sink branch by id, run `sink_traversal_c2p` from it at its own position,
then apply the intra-sink direct sum to the collected `subparts`. -/
noncomputable def sinkApply (c : MpiCell ℝ) (sb : BTree ℝ) : BTree ℝ :=
  let r := sink_traversal_c2p (posOf sb) c.fc c.dfcdr c.dfcdrdr sb
  directPhase r.2 r.1

/-- One iteration of the apply loop of `mpi_gather_cells`. -/
noncomputable def gatherApplyCell (t : BTree ℝ) (c : MpiCell ℝ) : BTree ℝ :=
  applyAt c.id (sinkApply c) t

/-- A full single-process gravity step: `mpi_exchange_cells` (frontier
selection; with one process the gathered catalog is the local `vcells`),
`mpi_compute_fmm` (C2C on every cell), and `mpi_gather_cells` (with one
process the reduction loop `for(int i=1;i<size;++i)` is empty, so the
computed cells are applied directly). -/
noncomputable def gravityStep (maxMass macangle : ℝ) (t : BTree ℝ) : BTree ℝ :=
  ((mpi_exchange_cells maxMass t).map (computeCell macangle t)).foldl
    gatherApplyCell t

/-- The per-slot combine of the reduction loop of `mpi_gather_cells`
(`recvcells[j]` combined with `recvcells[i*ncells+j]`): assert equal
`position`, assert equal `id`, sum `fc`, sum `dfcdr` for `k < 9`, sum
`dfcdrdr` for `k < 27` and assert each summed Hessian component `< 1000`.
A failed assertion aborts the step (`none`). -/
def combineCell {K : Type} [LinearOrderedField K] (c0 ci : MpiCell K) :
    Option (MpiCell K) :=
  if ¬ pEq c0.position ci.position then none
  else if ¬ c0.id = ci.id then none
  else
    let dfcdrdr' : ℕ → K := fun n =>
      if n < 27 then c0.dfcdrdr n + ci.dfcdrdr n else c0.dfcdrdr n
    haveI : Decidable (∀ k < 27, dfcdrdr' k < 1000) := Nat.decidableBallLT 27 _
    if ∀ k < 27, dfcdrdr' k < 1000 then
      some { c0 with
        fc := fun n => c0.fc n + ci.fc n
        dfcdr := fun n => if n < 9 then c0.dfcdr n + ci.dfcdr n else c0.dfcdr n
        dfcdrdr := dfcdrdr' }
    else none

/-- Erase every body's acceleration (specification device for the frame
property: two trees equal after `eraseAcc` agree on all branch data and on
every body's position, mass and locality, and differ at most in body
accelerations). -/
def eraseAcc {K : Type} [LinearOrderedField K] : BTree K → BTree K
  | .leaf i p bn bx m bs =>
      .leaf i p bn bx m (bs.map (fun b => { b with acc := fun _ => 0 }))
  | .node i p bn bx m ch => .node i p bn bx m (fun j => eraseAcc (ch j))

/-- The bodies of a tree, in leaf order. -/
def bodiesOf {K : Type} : BTree K → List (Body K)
  | .leaf _ _ _ _ _ bs => bs
  | .node _ _ _ _ _ ch =>
      bodiesOf (ch 0) ++ bodiesOf (ch 1) ++ bodiesOf (ch 2) ++ bodiesOf (ch 3) ++
      bodiesOf (ch 4) ++ bodiesOf (ch 5) ++ bodiesOf (ch 6) ++ bodiesOf (ch 7)

/-- The Hessian increment as the specification claims it: with `r` the
sink-minus-source vector, `d` the distance, `β = −3m/d⁵` and
`T = δ_ij r_k + δ_jk r_i + δ_ik r_j`, the slot `i*9+j*3+k` gains
`β · (T' − (5/d²) r_i r_j r_k)` where `T'` is `T` tripled exactly when the
three indices are not all equal.  Stated for comparison against
`computeAcceleration`. -/
noncomputable def claimedHessianAdd (r : Point ℝ) (d m : ℝ) (i j k : ℕ) : ℝ :=
  let beta : ℝ := -3 * m / (d * d * d * d * d)
  let T : ℝ := (if i = j then r k else 0) + (if j = k then r i else 0) +
    (if i = k then r j else 0)
  beta * ((if i = j ∧ j = k then T else 3 * T) - 5 / (d * d) * (r i * r j * r k))

/-- The C2P Taylor expansion as the specification claims it:
`a(p)_i = fc_i + Σ_j dfcdr[i*3+j] δ_j + ½ Σ_{j,k} dfcdrdr[i*9+j*3+k] δ_j δ_k`
with `δ = p − cell.position`.  Stated for comparison against `gravAt`. -/
def claimedTaylor {K : Type} [LinearOrderedField K] (fc : Point K)
    (jacobi hessian : ℕ → K) (sinkPos p : Point K) : Point K :=
  let δ : Point K := fun n => p n - sinkPos n
  fun i =>
    fc i + (∑ j ∈ Finset.range 3, jacobi (i * 3 + j) * δ j) +
      (1 / 2) * ∑ j ∈ Finset.range 3, ∑ k ∈ Finset.range 3,
        hessian (i * 9 + j * 3 + k) * δ j * δ k

/-- A sink whose id coincides with the id of the source branch below. -/
noncomputable def sinkEx : Sink := ⟨pt 2 0 0, pt 5 5 5, pt 6 6 6, 7⟩

/-- A source leaf with id 7, mass 1, COM at the origin, unit box diagonal. -/
noncomputable def srcEx : BTree ℝ := .leaf 7 (pt 0 0 0) (pt 0 0 0) (pt 1 0 0) 1 []

/-- Mass consistency of a local tree: every internal branch's mass equals
the sum of its eight children's masses (non-local children contribute their
stored mass 0). -/
inductive MassConsistent {K : Type} [LinearOrderedField K] : BTree K → Prop where
  | leaf (i : ℕ) (p bn bx : Point K) (m : K) (bs : List (Body K)) :
      MassConsistent (.leaf i p bn bx m bs)
  | node (i : ℕ) (p bn bx : Point K) (m : K) (ch : Fin 8 → BTree K)
      (hm : m = massOf (ch 0) + massOf (ch 1) + massOf (ch 2) + massOf (ch 3) +
        massOf (ch 4) + massOf (ch 5) + massOf (ch 6) + massOf (ch 7))
      (hch : ∀ j : Fin 8, MassConsistent (ch j)) :
      MassConsistent (.node i p bn bx m ch)

/-- A concrete mass-consistent tree: root mass 3, children of masses
1, 2 and six non-local (mass 0) leaves. -/
def treeEx : BTree ℚ :=
  .node 1 (pt 0 0 0) (pt 0 0 0) (pt 1 1 1) 3 (fun j =>
    if j.val = 0 then .leaf 2 (pt 0 0 0) (pt 0 0 0) (pt 1 1 1) 1 []
    else if j.val = 1 then .leaf 3 (pt 0 0 0) (pt 0 0 0) (pt 1 1 1) 2 []
    else .leaf 4 (pt 0 0 0) (pt 0 0 0) (pt 1 1 1) 0 [])

/-- A local body used by the C2P witness. -/
def bodyEx : Body ℚ := ⟨pt 1 2 0, 1, pt 0 0 0, true⟩

/-- An internal source branch with a heavy child: if the traversal recursed
past the MAC it would pick up the child's mass 100. -/
noncomputable def srcNodeEx : BTree ℝ :=
  .node 4 (pt 0 0 0) (pt 0 0 0) (pt 1 0 0) 1
    (fun _ => .leaf 9 (pt 0 0 0) (pt 0 0 0) (pt 1 0 0) 100 [])

/-- Chunk-0 cell for the reduction counterexample and witnesses. -/
def cexCell0 : MpiCell ℚ :=
  ⟨pt 0 0 0, fun _ => 1, fun _ => 1, fun _ => 1, pt 1 1 1, pt 0 0 0, 5⟩

/-- Peer cell with the same position and id but a different bounding box. -/
def cexCell1 : MpiCell ℚ :=
  ⟨pt 0 0 0, fun _ => 2, fun _ => 2, fun _ => 2, pt 9 9 9, pt 7 7 7, 5⟩

/-- A chunk whose Hessian components are all 600: two of them sum to 1200. -/
def cexCellBig : MpiCell ℚ :=
  ⟨pt 0 0 0, fun _ => 0, fun _ => 0, fun _ => 600, pt 1 1 1, pt 0 0 0, 3⟩

/-- Concrete single body at the tree's center of mass. -/
noncomputable def bodyW : Body ℝ := ⟨pt 0 0 0, 1, pt 5 5 5, true⟩


/-- Square-root evaluation helper. -/
lemma sqrt_four : Real.sqrt 4 = 2 := by
  rw [show (4 : ℝ) = 2 ^ 2 by norm_num, Real.sqrt_sq (by norm_num : (0 : ℝ) ≤ 2)]

/-- Distance between two concrete points, as an explicit square root. -/
lemma pdist_eval (a b : Point ℝ) :
    pdist a b =
      Real.sqrt ((a 0 - b 0) ^ 2 + (a 1 - b 1) ^ 2 + (a 2 - b 2) ^ 2) := by
  rw [pdist]
  congr 1
  rw [Finset.sum_range_succ, Finset.sum_range_succ, Finset.sum_range_succ,
    Finset.sum_range_zero]
  ring

lemma pdist_pt_2 : pdist (pt 2 0 0) (pt 0 0 0) = 2 := by
  rw [pdist_eval]
  norm_num [pt, sqrt_four]

/-- Unfolding equation of `tree_traversal_c2c` at a leaf source. -/
lemma c2c_leaf (θ : ℝ) (sink : Sink) (j : ℕ) (q qn qx : Point ℝ) (m : ℝ)
    (bs : List (Body ℝ)) (acc : Accum ℝ) :
    tree_traversal_c2c θ sink (.leaf j q qn qx m bs) acc =
      (if m = 0 then (acc, if sink.id = j then 1 else 0)
       else if pEq sink.bmin qn ∧ pEq sink.bmax qx then
         (acc, if sink.id = j then 1 else 0)
       else if pLt sink.bmin qn ∧ pLt qx sink.bmax then
         (acc, if sink.id = j then 1 else 0)
       else if MAC sink (.leaf j q qn qx m bs) θ then
         (computeAcceleration sink.pos q m acc, if sink.id = j then 1 else 0)
       else
         (bs.foldl (fun a b =>
           if b.isLocal ∧ ¬(pLt b.pos sink.bmax ∧ pLt sink.bmin b.pos) then
             computeAcceleration sink.pos b.pos b.mass a
           else a) acc, if sink.id = j then 1 else 0)) := rfl

/-- Unfolding equation of `tree_traversal_c2c` at an internal source. -/
lemma c2c_node (θ : ℝ) (sink : Sink) (j : ℕ) (q qn qx : Point ℝ) (m : ℝ)
    (ch : Fin 8 → BTree ℝ) (acc : Accum ℝ) :
    tree_traversal_c2c θ sink (.node j q qn qx m ch) acc =
      (if m = 0 then (acc, if sink.id = j then 1 else 0)
       else if pEq sink.bmin qn ∧ pEq sink.bmax qx then
         (acc, if sink.id = j then 1 else 0)
       else if pLt sink.bmin qn ∧ pLt qx sink.bmax then
         (acc, if sink.id = j then 1 else 0)
       else if MAC sink (.node j q qn qx m ch) θ then
         (computeAcceleration sink.pos q m acc, if sink.id = j then 1 else 0)
       else
         let r0 := tree_traversal_c2c θ sink (ch 0) acc
         let r1 := tree_traversal_c2c θ sink (ch 1) r0.1
         let r2 := tree_traversal_c2c θ sink (ch 2) r1.1
         let r3 := tree_traversal_c2c θ sink (ch 3) r2.1
         let r4 := tree_traversal_c2c θ sink (ch 4) r3.1
         let r5 := tree_traversal_c2c θ sink (ch 5) r4.1
         let r6 := tree_traversal_c2c θ sink (ch 6) r5.1
         let r7 := tree_traversal_c2c θ sink (ch 7) r6.1
         (r7.1, (if sink.id = j then 1 else 0) + r0.2 + r1.2 + r2.2 + r3.2 +
           r4.2 + r5.2 + r6.2 + r7.2)) := rfl

/-- The accumulated tensors of a C2C traversal do not depend on the sink's
id: the id enters only the `"Same Id"` log. -/
lemma c2c_acc_ignores_id (θ : ℝ) (p bn bx : Point ℝ) (i₁ i₂ : ℕ) :
    ∀ (src : BTree ℝ) (acc : Accum ℝ),
      (tree_traversal_c2c θ ⟨p, bn, bx, i₁⟩ src acc).1 =
        (tree_traversal_c2c θ ⟨p, bn, bx, i₂⟩ src acc).1 := by
  intro src
  induction src with
  | leaf j q qn qx m bs =>
      intro acc
      rw [c2c_leaf, c2c_leaf]
      simp only [MAC, bminOf, bmaxOf, posOf]
      dsimp only
      split_ifs <;> rfl
  | node j q qn qx m ch ih =>
      intro acc
      rw [c2c_node, c2c_node]
      simp only [MAC, bminOf, bmaxOf, posOf]
      dsimp only
      split_ifs <;> first | rfl | simp only [ih]

lemma pdist_pt_unit : pdist (pt 0 0 0) (pt 1 0 0) = 1 := by
  rw [pdist_eval]
  norm_num [pt, Real.sqrt_one]



/-- **C2 (counterexample).**  The claim says a source with `s.id == k.id` is
skipped, with no contribution accumulated into the sink's tensors.  Here
sink and source share id 7, every other guard passes and the MAC accepts,
and the source's point-mass contribution `fc[0] = −1/4` *is* accumulated
(the accumulator starts at 0): the id test only prints `"Same Id"` and
falls through. -/
theorem c2c_same_id_still_contributes :
    sinkEx.id = idOf srcEx ∧
      (tree_traversal_c2c 1 sinkEx srcEx accZero).1.fc 0 = -(1 / 4) ∧
      accZero.fc 0 = (0 : ℝ) := by
  refine ⟨rfl, ?_, rfl⟩
  have hbox : ¬ (pEq sinkEx.bmin (pt 0 0 0) ∧ pEq sinkEx.bmax (pt 1 0 0)) := by
    intro h
    have h5 := h.1 0 (by norm_num)
    simp [sinkEx, pt] at h5
  have hins : ¬ (pLt sinkEx.bmin (pt 0 0 0) ∧ pLt (pt 1 0 0) sinkEx.bmax) := by
    intro h
    have h5 := h.1 0 (by norm_num)
    simp [sinkEx, pt] at h5
    exact absurd h5 (by norm_num)
  have hmac : MAC sinkEx srcEx 1 := by
    show pdist (pt 0 0 0) (pt 1 0 0) / pdist (pt 2 0 0) (pt 0 0 0) < 1
    rw [pdist_pt_unit, pdist_pt_2]
    norm_num
  rw [show srcEx = BTree.leaf 7 (pt 0 0 0) (pt 0 0 0) (pt 1 0 0) 1 [] from rfl]
    at hmac ⊢
  rw [c2c_leaf, if_neg one_ne_zero, if_neg hbox, if_neg hins, if_pos hmac]
  show (computeAcceleration sinkEx.pos (pt 0 0 0) 1 accZero).fc 0 = -(1 / 4)
  rw [show sinkEx.pos = pt 2 0 0 from rfl]
  norm_num [computeAcceleration, pdist_pt_2, accZero, pt]

/-- **C2 (amended).**  When `s.id == k.id` the traversal only logs the match
and continues: the accumulated tensors are exactly those of the same
traversal with any other sink id (the id never influences the accumulator),
and the identity match is recorded in the log. -/
theorem c2c_identity_log_only (θ : ℝ) (sink : Sink) (src : BTree ℝ)
    (acc : Accum ℝ) (j : ℕ) :
    (tree_traversal_c2c θ sink src acc).1 =
      (tree_traversal_c2c θ ⟨sink.pos, sink.bmin, sink.bmax, j⟩ src acc).1 ∧
    (sink.id = idOf src → 1 ≤ (tree_traversal_c2c θ sink src acc).2) := by
  constructor
  · obtain ⟨p, bn, bx, i⟩ := sink
    exact c2c_acc_ignores_id θ p bn bx i j src acc
  · intro hid
    cases src with
    | leaf j' q qn qx m bs =>
        have hj : sink.id = j' := hid
        rw [c2c_leaf, if_pos hj]
        split_ifs <;> simp
    | node j' q qn qx m ch =>
        have hj : sink.id = j' := hid
        rw [c2c_node, if_pos hj]
        split_ifs <;> simp
        omega

/-- Witness for `c2c_identity_log_only` at the concrete same-id pair. -/
theorem c2c_identity_log_only_witness :
    sinkEx.id = idOf srcEx ∧
      (tree_traversal_c2c 1 sinkEx srcEx accZero).1 =
        (tree_traversal_c2c 1 ⟨sinkEx.pos, sinkEx.bmin, sinkEx.bmax, 99⟩ srcEx
          accZero).1 ∧
      1 ≤ (tree_traversal_c2c 1 sinkEx srcEx accZero).2 :=
  ⟨rfl, (c2c_identity_log_only 1 sinkEx srcEx accZero 99).1,
    (c2c_identity_log_only 1 sinkEx srcEx accZero 99).2 rfl⟩


/-- The frontier masses emitted below any path sum to the branch mass. -/
lemma traverse_mass_sum {K : Type} [LinearOrderedField K] (maxMass : K) :
    ∀ (t : BTree K), MassConsistent t → ∀ path : List ℕ,
      ((traverseCells maxMass path t).map (fun pc => massOf pc.2)).sum = massOf t := by
  intro t hc
  induction hc with
  | leaf i p bn bx m bs =>
      intro path
      rw [traverseCells]
      by_cases hm : m = 0
      · rw [if_pos hm]
        simp [massOf, hm]
      · rw [if_neg hm]
        simp [massOf]
  | node i p bn bx m ch hm hch ih =>
      intro path
      rw [traverseCells]
      by_cases h0 : m = 0
      · rw [if_pos h0]
        simp [massOf, h0]
      · rw [if_neg h0]
        by_cases h1 : m < maxMass
        · rw [if_pos h1]
          simp [massOf]
        · rw [if_neg h1]
          simp only [List.map_append, List.sum_append]
          rw [ih 0, ih 1, ih 2, ih 3, ih 4, ih 5, ih 6, ih 7,
            show massOf (BTree.node i p bn bx m ch) = m from rfl, hm]

/-- **C4.**  For every mass-consistent local tree and threshold
`maxMass > 0`, the masses of the branches emitted as frontier cells by the
selection traversal of `mpi_exchange_cells` sum to the root's mass. -/
theorem frontier_mass_coverage {K : Type} [LinearOrderedField K] (maxMass : K)
    (_hM : 0 < maxMass) (t : BTree K) (hc : MassConsistent t) :
    ((traverseCells maxMass [] t).map (fun pc => massOf pc.2)).sum = massOf t :=
  traverse_mass_sum maxMass t hc []


/-- `treeEx` is mass consistent. -/
lemma treeEx_consistent : MassConsistent treeEx := by
  refine MassConsistent.node _ _ _ _ _ _ ?_ ?_
  · show (3 : ℚ) = 1 + 2 + 0 + 0 + 0 + 0 + 0 + 0
    norm_num
  · intro j
    fin_cases j <;> exact MassConsistent.leaf _ _ _ _ _ _

/-- Witness for `frontier_mass_coverage`: with `maxMass = 2` the traversal
recurses at the root (mass 3) and emits the leaves of masses 1 and 2. -/
theorem frontier_mass_coverage_witness :
    (0 : ℚ) < 2 ∧ MassConsistent treeEx ∧
      ((traverseCells (2 : ℚ) [] treeEx).map (fun pc => massOf pc.2)).sum =
        massOf treeEx :=
  ⟨by norm_num, treeEx_consistent,
    frontier_mass_coverage 2 (by norm_num) treeEx treeEx_consistent⟩

/-- The source's Hessian contraction (read at `i*9 + j + k*3`) agrees with
the specification's row-major contraction (read at `i*9 + j*3 + k`): the two
differ by the relabelling `j ↔ k` together with the commutativity of the
factors `δ_j δ_k`. -/
lemma hessContract {K : Type} [LinearOrderedField K] (H δ : ℕ → K) (n : ℕ) :
    ∑ j ∈ Finset.range 3,
        (∑ k ∈ Finset.range 3, δ k * H (n * 9 + j + k * 3)) * δ j =
      ∑ j ∈ Finset.range 3, ∑ k ∈ Finset.range 3,
        H (n * 9 + j * 3 + k) * δ j * δ k := by
  have h1 : ∀ j ∈ Finset.range 3,
      (∑ k ∈ Finset.range 3, δ k * H (n * 9 + j + k * 3)) * δ j =
        ∑ k ∈ Finset.range 3, δ k * H (n * 9 + j + k * 3) * δ j :=
    fun j _ => Finset.sum_mul _ _ _
  rw [Finset.sum_congr rfl h1, Finset.sum_comm]
  apply Finset.sum_congr rfl
  intro a _
  apply Finset.sum_congr rfl
  intro b _
  have harg : n * 9 + b + a * 3 = n * 9 + a * 3 + b := by ring
  rw [harg]
  ring

/-- The acceleration increment computed by the body loop of
`sink_traversal_c2p` equals the Taylor value claimed by the specification. -/
lemma gravAt_eq_claimedTaylor {K : Type} [LinearOrderedField K] (fc : Point K)
    (jacobi hessian : ℕ → K) (sinkPos p : Point K) (n : ℕ) :
    gravAt fc jacobi hessian sinkPos p n =
      claimedTaylor fc jacobi hessian sinkPos p n := by
  simp only [gravAt, claimedTaylor]
  congr 1
  congr 1
  exact hessContract hessian (fun i => p i - sinkPos i) n

/-- **C5.**  On a leaf of positive mass, the C2P descent updates every local
body additively by exactly the claimed Taylor value
`a(p) = fc + dfcdr·δ + ½·Σ_{j,k} dfcdrdr[i*9+j*3+k]·δ_j·δ_k` with
`δ = p − sinkPosition` (non-local bodies and the branch data are untouched,
and the local bodies are collected as neighbors). -/
theorem c2p_taylor_exact {K : Type} [LinearOrderedField K] (sinkPos fc : Point K)
    (jacobi hessian : ℕ → K) (i0 : ℕ) (p bn bx : Point K) (m : K) (hm : 0 < m)
    (bs : List (Body K)) :
    sink_traversal_c2p sinkPos fc jacobi hessian (.leaf i0 p bn bx m bs) =
      (.leaf i0 p bn bx m (bs.map (fun b =>
        if b.isLocal then
          { b with acc := fun n =>
              claimedTaylor fc jacobi hessian sinkPos b.pos n + b.acc n }
        else b)),
       bs.filter (fun b => b.isLocal)) := by
  rw [sink_traversal_c2p, if_neg (not_le.mpr hm)]
  simp only [gravAt_eq_claimedTaylor]


/-- Witness for `c2p_taylor_exact` at a concrete leaf of mass 2. -/
theorem c2p_taylor_exact_witness :
    (0 : ℚ) < 2 ∧
      sink_traversal_c2p (pt 0 0 0) (pt 1 0 0) (fun _ => 1) (fun _ => 1)
          (.leaf 4 (pt 0 0 0) (pt 0 0 0) (pt 3 3 3) 2 [bodyEx]) =
        (.leaf 4 (pt 0 0 0) (pt 0 0 0) (pt 3 3 3) 2 ([bodyEx].map (fun b =>
          if b.isLocal then
            { b with acc := fun n =>
                (claimedTaylor (pt 1 0 0) (fun _ => 1) (fun _ => 1) (pt 0 0 0) b.pos n
                  + b.acc n) }
          else b)),
         [bodyEx].filter (fun b => b.isLocal)) :=
  ⟨by norm_num,
    c2p_taylor_exact (pt 0 0 0) (pt 1 0 0) (fun _ => 1) (fun _ => 1) 4
      (pt 0 0 0) (pt 0 0 0) (pt 3 3 3) 2 (by norm_num) [bodyEx]⟩

/-- **C6.**  The MAC holds exactly when the Euclidean diagonal of the
source's bounding box divided by the sink-to-source distance is below the
opening angle; and a source that passes the traversal guards (nonzero mass,
not the sink's own box, not strictly inside the sink's box) and is accepted
by the MAC contributes exactly one point-mass `computeAcceleration` at its
center of mass — its children (or bodies) are not visited.  The hypothesis
`0 < dist` restricts the statement to the region where the source's own
`assert(dist > 0)` holds (and where IEEE and field division agree). -/
theorem mac_point_mass (θ : ℝ) (sink : Sink) (src : BTree ℝ) (acc : Accum ℝ)
    (hd : 0 < pdist sink.pos (posOf src))
    (hm : massOf src ≠ 0)
    (hbox : ¬ (pEq sink.bmin (bminOf src) ∧ pEq sink.bmax (bmaxOf src)))
    (hins : ¬ (pLt sink.bmin (bminOf src) ∧ pLt (bmaxOf src) sink.bmax))
    (hang : pdist (bminOf src) (bmaxOf src) / pdist sink.pos (posOf src) < θ) :
    MAC sink src θ ∧
      (tree_traversal_c2c θ sink src acc).1 =
        computeAcceleration sink.pos (posOf src) (massOf src) acc := by
  have hmac : MAC sink src θ := hang
  refine ⟨hmac, ?_⟩
  cases src with
  | leaf j q qn qx m bs =>
      have hm' : ¬ (m = 0) := hm
      have hbox' : ¬ (pEq sink.bmin qn ∧ pEq sink.bmax qx) := hbox
      have hins' : ¬ (pLt sink.bmin qn ∧ pLt qx sink.bmax) := hins
      rw [c2c_leaf, if_neg hm', if_neg hbox', if_neg hins', if_pos hmac]
      rfl
  | node j q qn qx m ch =>
      have hm' : ¬ (m = 0) := hm
      have hbox' : ¬ (pEq sink.bmin qn ∧ pEq sink.bmax qx) := hbox
      have hins' : ¬ (pLt sink.bmin qn ∧ pLt qx sink.bmax) := hins
      rw [c2c_node, if_neg hm', if_neg hbox', if_neg hins', if_pos hmac]
      rfl


/-- Witness for `mac_point_mass`: box diagonal 1, distance 2, angle 1. -/
theorem mac_point_mass_witness :
    0 < pdist sinkEx.pos (posOf srcNodeEx) ∧
      massOf srcNodeEx ≠ 0 ∧
      pdist (bminOf srcNodeEx) (bmaxOf srcNodeEx) /
          pdist sinkEx.pos (posOf srcNodeEx) < 1 ∧
      MAC sinkEx srcNodeEx 1 ∧
      (tree_traversal_c2c 1 sinkEx srcNodeEx accZero).1 =
        computeAcceleration sinkEx.pos (posOf srcNodeEx) (massOf srcNodeEx)
          accZero := by
  have hd : 0 < pdist sinkEx.pos (posOf srcNodeEx) := by
    rw [show sinkEx.pos = pt 2 0 0 from rfl,
      show posOf srcNodeEx = pt 0 0 0 from rfl, pdist_pt_2]
    norm_num
  have hm : massOf srcNodeEx ≠ 0 := by
    rw [show massOf srcNodeEx = 1 from rfl]
    norm_num
  have hbox : ¬ (pEq sinkEx.bmin (bminOf srcNodeEx) ∧
      pEq sinkEx.bmax (bmaxOf srcNodeEx)) := by
    intro h
    have h5 := h.1 0 (by norm_num)
    simp [sinkEx, srcNodeEx, bminOf, pt] at h5
  have hins : ¬ (pLt sinkEx.bmin (bminOf srcNodeEx) ∧
      pLt (bmaxOf srcNodeEx) sinkEx.bmax) := by
    intro h
    have h5 := h.1 0 (by norm_num)
    simp [sinkEx, srcNodeEx, bminOf, pt] at h5
    exact absurd h5 (by norm_num)
  have hang : pdist (bminOf srcNodeEx) (bmaxOf srcNodeEx) /
      pdist sinkEx.pos (posOf srcNodeEx) < 1 := by
    rw [show bminOf srcNodeEx = pt 0 0 0 from rfl,
      show bmaxOf srcNodeEx = pt 1 0 0 from rfl,
      show sinkEx.pos = pt 2 0 0 from rfl,
      show posOf srcNodeEx = pt 0 0 0 from rfl, pdist_pt_unit, pdist_pt_2]
    norm_num
  have hall := mac_point_mass 1 sinkEx srcNodeEx accZero hd hm hbox hins hang
  exact ⟨hd, hm, hang, hall.1, hall.2⟩

/-- Success case of the per-slot combine: matching `position` and `id` and a
Hessian sum below the 1000 guard produce the summed cell. -/
lemma combineCell_some {K : Type} [LinearOrderedField K] (c0 ci : MpiCell K)
    (hp : pEq c0.position ci.position) (hid : c0.id = ci.id)
    (hb : ∀ k < 27, c0.dfcdrdr k + ci.dfcdrdr k < 1000) :
    combineCell c0 ci = some { c0 with
      fc := fun n => c0.fc n + ci.fc n
      dfcdr := fun n => if n < 9 then c0.dfcdr n + ci.dfcdr n else c0.dfcdr n
      dfcdrdr := fun n =>
        if n < 27 then c0.dfcdrdr n + ci.dfcdrdr n else c0.dfcdrdr n } := by
  simp only [combineCell]
  rw [if_neg (not_not_intro hp), if_neg (not_not_intro hid), if_pos]
  intro k hk
  simpa [hk] using hb k hk

/-- A `position` or `id` mismatch makes the combine abort. -/
lemma combineCell_none_meta {K : Type} [LinearOrderedField K] (c0 ci : MpiCell K)
    (h : ¬ (pEq c0.position ci.position ∧ c0.id = ci.id)) :
    combineCell c0 ci = none := by
  by_cases hp : pEq c0.position ci.position
  · have hid : ¬ c0.id = ci.id := fun hid => h ⟨hp, hid⟩
    simp only [combineCell]
    rw [if_neg (not_not_intro hp), if_pos hid]
  · simp only [combineCell]
    rw [if_pos hp]

/-- A summed Hessian component reaching 1000 makes the combine abort. -/
lemma combineCell_none_big {K : Type} [LinearOrderedField K] (c0 ci : MpiCell K)
    (hp : pEq c0.position ci.position) (hid : c0.id = ci.id)
    (hbig : ∃ k, k < 27 ∧ (1000 : K) ≤ c0.dfcdrdr k + ci.dfcdrdr k) :
    combineCell c0 ci = none := by
  simp only [combineCell]
  rw [if_neg (not_not_intro hp), if_neg (not_not_intro hid), if_neg]
  intro hall
  obtain ⟨k, hk, hge⟩ := hbig
  have h2 := hall k hk
  rw [if_pos hk] at h2
  exact absurd h2 (not_lt.mpr hge)

/-- **C3 (amended).**  The per-slot gather reduction sums exactly the tensor
fields `fc` (all point components), `dfcdr` for slots `< 9` and `dfcdrdr`
for slots `< 27`, carries `position`, `bmin`, `bmax`, `id` over from the
owner's chunk unchanged, and aborts when `position` or `id` differ between
the chunks.  No hypothesis on `bmin`/`bmax` is needed for the sum to be
taken: the source asserts only `position` and `id`. -/
theorem combine_reduction_semantics {K : Type} [LinearOrderedField K] :
    (∀ c0 ci : MpiCell K, pEq c0.position ci.position → c0.id = ci.id →
      (∀ k < 27, c0.dfcdrdr k + ci.dfcdrdr k < 1000) →
      combineCell c0 ci = some { c0 with
        fc := fun n => c0.fc n + ci.fc n
        dfcdr := fun n => if n < 9 then c0.dfcdr n + ci.dfcdr n else c0.dfcdr n
        dfcdrdr := fun n =>
          if n < 27 then c0.dfcdrdr n + ci.dfcdrdr n else c0.dfcdrdr n }) ∧
    (∀ c0 ci : MpiCell K, ¬ (pEq c0.position ci.position ∧ c0.id = ci.id) →
      combineCell c0 ci = none) :=
  ⟨fun c0 ci hp hid hb => combineCell_some c0 ci hp hid hb,
   fun c0 ci h => combineCell_none_meta c0 ci h⟩



/-- **C3 (counterexample).**  The claim says `bmin` and `bmax` are checked
to be identical before the sum is taken; here the two chunks disagree on
both `bmin` and `bmax`, yet the reduction succeeds (no assertion fires). -/
theorem gather_reduction_no_box_check :
    (combineCell cexCell0 cexCell1).isSome = true ∧
      ¬ pEq cexCell0.bmin cexCell1.bmin ∧ ¬ pEq cexCell0.bmax cexCell1.bmax := by
  refine ⟨?_, ?_, ?_⟩
  · rw [combineCell_some cexCell0 cexCell1 (fun i _ => rfl) rfl ?_]
    · rfl
    · intro k hk
      show (1 : ℚ) + 2 < 1000
      norm_num
  · intro h
    have h0 := h 0 (by norm_num)
    simp [cexCell0, cexCell1, pt] at h0
  · intro h
    have h0 := h 0 (by norm_num)
    simp [cexCell0, cexCell1, pt] at h0

/-- Witness for `combine_reduction_semantics` at concrete cells. -/
theorem combine_reduction_semantics_witness :
    combineCell cexCell0 cexCell1 = some { cexCell0 with
      fc := fun n => cexCell0.fc n + cexCell1.fc n
      dfcdr := fun n =>
        if n < 9 then cexCell0.dfcdr n + cexCell1.dfcdr n else cexCell0.dfcdr n
      dfcdrdr := fun n =>
        if n < 27 then cexCell0.dfcdrdr n + cexCell1.dfcdrdr n
        else cexCell0.dfcdrdr n } :=
  (combine_reduction_semantics (K := ℚ)).1 cexCell0 cexCell1 (fun i _ => rfl) rfl
    (fun k hk => by show (1 : ℚ) + 2 < 1000; norm_num)

/-- **C10.**  After each peer chunk is added, every Hessian component of the
partially reduced slot satisfies the `< 1000` assertion; conversely, a pair
of chunks whose summed Hessian reaches 1000 in any component makes the
reduction abort, even though the specification mentions no such limit. -/
theorem hessian_thousand_guard {K : Type} [LinearOrderedField K] :
    (∀ c0 ci c' : MpiCell K, combineCell c0 ci = some c' →
      ∀ k < 27, c'.dfcdrdr k < 1000) ∧
    (∀ c0 ci : MpiCell K, pEq c0.position ci.position → c0.id = ci.id →
      (∃ k, k < 27 ∧ (1000 : K) ≤ c0.dfcdrdr k + ci.dfcdrdr k) →
      combineCell c0 ci = none) := by
  constructor
  · intro c0 ci c' h k hk
    by_cases hp : pEq c0.position ci.position
    · by_cases hid : c0.id = ci.id
      · by_cases hb : ∀ j < 27, c0.dfcdrdr j + ci.dfcdrdr j < 1000
        · have hs := combineCell_some c0 ci hp hid hb
          rw [h] at hs
          obtain rfl := Option.some.inj hs
          simpa [hk] using hb k hk
        · push_neg at hb
          obtain ⟨j, hj, hge⟩ := hb
          rw [combineCell_none_big c0 ci hp hid ⟨j, hj, hge⟩] at h
          exact Option.noConfusion h
      · rw [combineCell_none_meta c0 ci (fun hh => hid hh.2)] at h
        exact Option.noConfusion h
    · rw [combineCell_none_meta c0 ci (fun hh => hp hh.1)] at h
      exact Option.noConfusion h
  · intro c0 ci hp hid hbig
    exact combineCell_none_big c0 ci hp hid hbig


/-- Witness for `hessian_thousand_guard`: the reduction of two such chunks
aborts. -/
theorem hessian_thousand_guard_witness :
    combineCell cexCellBig cexCellBig = none ∧
      (1000 : ℚ) ≤ cexCellBig.dfcdrdr 0 + cexCellBig.dfcdrdr 0 :=
  ⟨(hessian_thousand_guard (K := ℚ)).2 cexCellBig cexCellBig (fun i _ => rfl) rfl
      ⟨0, by norm_num, by show (1000 : ℚ) ≤ 600 + 600; norm_num⟩,
    by show (1000 : ℚ) ≤ 600 + 600; norm_num⟩

/-- **C1 (code bug).**  The claim states that the point contribution adds to
Hessian slot `i*9+j*3+k` the value `β·(T − (5/d²) r_i r_j r_k)` with the
`T` term tripled exactly when the three indices are *not all equal*.  The
source's guard is `if(!(i==j==k))`, which parses as `(i==j) != k`, so at
`i = j = k = 0` the code *does* triple the term.  At sink `(2,0,0)`, source
`(0,0,0)`, mass 1 (so `r = (2,0,0)`, `d = 2`), slot 0 receives `−3/4` from
the code while the claimed formula yields `3/8`. -/
theorem hessian_scaling_slip :
    (computeAcceleration (pt 2 0 0) (pt 0 0 0) 1 accZero).hessian 0 = -(3 / 4) ∧
      claimedHessianAdd (fun n => pt 2 0 0 n - pt 0 0 0 n) 2 1 0 0 0 = 3 / 8 ∧
      (-(3 / 4) : ℝ) ≠ 3 / 8 := by
  refine ⟨?_, ?_, by norm_num⟩
  · simp only [computeAcceleration, pdist_pt_2, accZero, hessFirst]
    norm_num [pt]
  · simp only [claimedHessianAdd]
    norm_num [pt]

/-- Every cell emitted by the selection traversal below `path` carries a
path extending `path`. -/
lemma traverseCells_extends {K : Type} [LinearOrderedField K] (maxMass : K) :
    ∀ (t : BTree K) (path : List ℕ) (pr : List ℕ × BTree K),
      pr ∈ traverseCells maxMass path t → path <+: pr.1 := by
  intro t
  induction t with
  | leaf i p bn bx m bs =>
      intro path pr hpr
      rw [traverseCells] at hpr
      split_ifs at hpr
      · cases hpr
      · obtain rfl := List.mem_singleton.mp hpr
        exact List.prefix_rfl
  | node i p bn bx m ch ih =>
      intro path pr hpr
      rw [traverseCells] at hpr
      split_ifs at hpr
      · cases hpr
      · obtain rfl := List.mem_singleton.mp hpr
        exact List.prefix_rfl
      · simp only [List.mem_append] at hpr
        rcases hpr with (((((((h|h)|h)|h)|h)|h)|h)|h)
        · exact (List.prefix_append path [0]).trans (ih 0 (path ++ [0]) pr h)
        · exact (List.prefix_append path [1]).trans (ih 1 (path ++ [1]) pr h)
        · exact (List.prefix_append path [2]).trans (ih 2 (path ++ [2]) pr h)
        · exact (List.prefix_append path [3]).trans (ih 3 (path ++ [3]) pr h)
        · exact (List.prefix_append path [4]).trans (ih 4 (path ++ [4]) pr h)
        · exact (List.prefix_append path [5]).trans (ih 5 (path ++ [5]) pr h)
        · exact (List.prefix_append path [6]).trans (ih 6 (path ++ [6]) pr h)
        · exact (List.prefix_append path [7]).trans (ih 7 (path ++ [7]) pr h)

/-- Cells emitted by the selection traversal are pairwise path-incomparable:
none is emitted inside the subtree of another emitted cell. -/
lemma traverseCells_pairwise {K : Type} [LinearOrderedField K] (maxMass : K) :
    ∀ (t : BTree K) (path : List ℕ),
      (traverseCells maxMass path t).Pairwise
        (fun a b => ¬ a.1 <+: b.1 ∧ ¬ b.1 <+: a.1) := by
  intro t
  induction t with
  | leaf i p bn bx m bs =>
      intro path
      rw [traverseCells]
      split_ifs
      · exact List.Pairwise.nil
      · simp
  | node i p bn bx m ch ih =>
      intro path
      rw [traverseCells]
      split_ifs
      · exact List.Pairwise.nil
      · simp
      · have hx : ∀ (jn kn : ℕ), jn ≠ kn → ∀ (jf kf : Fin 8),
            ∀ a ∈ traverseCells maxMass (path ++ [jn]) (ch jf),
            ∀ b ∈ traverseCells maxMass (path ++ [kn]) (ch kf),
              ¬ a.1 <+: b.1 ∧ ¬ b.1 <+: a.1 := by
          intro jn kn hjk jf kf a ha b hb
          have hpa := traverseCells_extends maxMass (ch jf) (path ++ [jn]) a ha
          have hpb := traverseCells_extends maxMass (ch kf) (path ++ [kn]) b hb
          constructor
          · intro hab
            have h1 : path ++ [jn] <+: b.1 := hpa.trans hab
            have h2 := (List.prefix_of_prefix_length_le h1 hpb
              (by simp)).eq_of_length (by simp)
            have h3 : jn = kn := by simpa using h2
            exact hjk h3
          · intro hba
            have h1 : path ++ [kn] <+: a.1 := hpb.trans hba
            have h2 := (List.prefix_of_prefix_length_le h1 hpa
              (by simp)).eq_of_length (by simp)
            have h3 : kn = jn := by simpa using h2
            exact hjk h3.symm
        refine List.pairwise_append.mpr ⟨?_, ih 7 (path ++ [7]), ?_⟩
        refine List.pairwise_append.mpr ⟨?_, ih 6 (path ++ [6]), ?_⟩
        refine List.pairwise_append.mpr ⟨?_, ih 5 (path ++ [5]), ?_⟩
        refine List.pairwise_append.mpr ⟨?_, ih 4 (path ++ [4]), ?_⟩
        refine List.pairwise_append.mpr ⟨?_, ih 3 (path ++ [3]), ?_⟩
        refine List.pairwise_append.mpr ⟨?_, ih 2 (path ++ [2]), ?_⟩
        refine List.pairwise_append.mpr ⟨ih 0 (path ++ [0]), ih 1 (path ++ [1]), ?_⟩
        · intro a ha b hb
          exact hx 0 1 (by norm_num) 0 1 a ha b hb
        · intro a ha b hb
          simp only [List.mem_append] at ha
          rcases ha with (h|h)
          · exact hx 0 2 (by norm_num) 0 2 a h b hb
          · exact hx 1 2 (by norm_num) 1 2 a h b hb
        · intro a ha b hb
          simp only [List.mem_append] at ha
          rcases ha with ((h|h)|h)
          · exact hx 0 3 (by norm_num) 0 3 a h b hb
          · exact hx 1 3 (by norm_num) 1 3 a h b hb
          · exact hx 2 3 (by norm_num) 2 3 a h b hb
        · intro a ha b hb
          simp only [List.mem_append] at ha
          rcases ha with (((h|h)|h)|h)
          · exact hx 0 4 (by norm_num) 0 4 a h b hb
          · exact hx 1 4 (by norm_num) 1 4 a h b hb
          · exact hx 2 4 (by norm_num) 2 4 a h b hb
          · exact hx 3 4 (by norm_num) 3 4 a h b hb
        · intro a ha b hb
          simp only [List.mem_append] at ha
          rcases ha with ((((h|h)|h)|h)|h)
          · exact hx 0 5 (by norm_num) 0 5 a h b hb
          · exact hx 1 5 (by norm_num) 1 5 a h b hb
          · exact hx 2 5 (by norm_num) 2 5 a h b hb
          · exact hx 3 5 (by norm_num) 3 5 a h b hb
          · exact hx 4 5 (by norm_num) 4 5 a h b hb
        · intro a ha b hb
          simp only [List.mem_append] at ha
          rcases ha with (((((h|h)|h)|h)|h)|h)
          · exact hx 0 6 (by norm_num) 0 6 a h b hb
          · exact hx 1 6 (by norm_num) 1 6 a h b hb
          · exact hx 2 6 (by norm_num) 2 6 a h b hb
          · exact hx 3 6 (by norm_num) 3 6 a h b hb
          · exact hx 4 6 (by norm_num) 4 6 a h b hb
          · exact hx 5 6 (by norm_num) 5 6 a h b hb
        · intro a ha b hb
          simp only [List.mem_append] at ha
          rcases ha with ((((((h|h)|h)|h)|h)|h)|h)
          · exact hx 0 7 (by norm_num) 0 7 a h b hb
          · exact hx 1 7 (by norm_num) 1 7 a h b hb
          · exact hx 2 7 (by norm_num) 2 7 a h b hb
          · exact hx 3 7 (by norm_num) 3 7 a h b hb
          · exact hx 4 7 (by norm_num) 4 7 a h b hb
          · exact hx 5 7 (by norm_num) 5 7 a h b hb
          · exact hx 6 7 (by norm_num) 6 7 a h b hb

/-- **C7.**  For every local tree and every `maxMass > 0`, no branch emitted
as a frontier cell by the selection traversal is a strict descendant of
another emitted branch: the tree paths of any two emitted cells are
mutually non-prefixes. -/
theorem frontier_disjoint {K : Type} [LinearOrderedField K] (maxMass : K)
    (_hM : 0 < maxMass) (t : BTree K) :
    (traverseCells maxMass [] t).Pairwise
      (fun a b => ¬ a.1 <+: b.1 ∧ ¬ b.1 <+: a.1) :=
  traverseCells_pairwise maxMass t []

/-- Witness for `frontier_disjoint` on the two-cell frontier of `treeEx`. -/
theorem frontier_disjoint_witness :
    (0 : ℚ) < 2 ∧
      (traverseCells (2 : ℚ) [] treeEx).Pairwise
        (fun a b => ¬ a.1 <+: b.1 ∧ ¬ b.1 <+: a.1) :=
  ⟨by norm_num, frontier_disjoint 2 (by norm_num) treeEx⟩


lemma pEq_refl {K : Type} [LinearOrderedField K] (a : Point K) : pEq a a :=
  fun _ _ => rfl

/-- The Taylor evaluation of zero tensors vanishes at every position. -/
lemma gravAt_zero {K : Type} [LinearOrderedField K] (sp p : Point K) (n : ℕ) :
    gravAt (fun _ => 0) (fun _ => 0) (fun _ => 0) sp p n = 0 := by
  simp [gravAt]

lemma pdist_self (a : Point ℝ) : pdist a a = 0 := by
  simp [pdist]

/-- The intra-sink direct sum of a body with itself alone is zero: the
`dist > 0` guard skips the self-pair. -/
lemma directAdd_self_pos (x y : Body ℝ) (hxy : y.pos = x.pos) :
    directAdd [x] y = fun _ => (0 : ℝ) := by
  rw [directAdd]
  simp [hxy, pdist_self]

/-- `sink_traversal_c2p` changes only body accelerations. -/
lemma eraseAcc_c2p (sinkPos fc : Point ℝ) (J H : ℕ → ℝ) :
    ∀ t : BTree ℝ,
      eraseAcc (sink_traversal_c2p sinkPos fc J H t).1 = eraseAcc t := by
  intro t
  induction t with
  | leaf i p bn bx m bs =>
      rw [sink_traversal_c2p]
      split_ifs
      · rfl
      · rw [eraseAcc, eraseAcc]
        simp only [List.map_map]
        congr 1
        apply List.map_congr_left
        intro b _
        by_cases hb : b.isLocal <;> simp [hb, Function.comp]
  | node i p bn bx m ch ih =>
      rw [sink_traversal_c2p]
      split_ifs
      · rfl
      · rw [eraseAcc, eraseAcc]
        congr 1
        funext j
        exact ih j

/-- The direct-sum write-back changes only body accelerations. -/
lemma eraseAcc_directPhase (parts : List (Body ℝ)) :
    ∀ t : BTree ℝ, eraseAcc (directPhase parts t) = eraseAcc t := by
  intro t
  induction t with
  | leaf i p bn bx m bs =>
      rw [directPhase]
      split_ifs
      · rfl
      · rw [eraseAcc, eraseAcc]
        simp only [List.map_map]
        congr 1
        apply List.map_congr_left
        intro b _
        by_cases hb : b.isLocal <;> simp [hb, Function.comp]
  | node i p bn bx m ch ih =>
      rw [directPhase]
      split_ifs
      · rfl
      · rw [eraseAcc, eraseAcc]
        congr 1
        funext j
        exact ih j

/-- The per-cell apply phase changes only body accelerations. -/
lemma eraseAcc_sinkApply (c : MpiCell ℝ) (t : BTree ℝ) :
    eraseAcc (sinkApply c t) = eraseAcc t := by
  simp only [sinkApply]
  rw [eraseAcc_directPhase, eraseAcc_c2p]

/-- Updating the branch with a given id by an acceleration-only
transformation is itself acceleration-only. -/
lemma eraseAcc_applyAt (idv : ℕ) (g : BTree ℝ → BTree ℝ)
    (hg : ∀ t, eraseAcc (g t) = eraseAcc t) :
    ∀ t, eraseAcc (applyAt idv g t) = eraseAcc t := by
  intro t
  induction t with
  | leaf i p bn bx m bs =>
      rw [applyAt]
      split_ifs
      · exact hg _
      · rfl
  | node i p bn bx m ch ih =>
      rw [applyAt]
      split_ifs
      · exact hg _
      · rw [eraseAcc, eraseAcc]
        congr 1
        funext j
        exact ih j

/-- Folding the gather apply over any cell list is acceleration-only. -/
lemma eraseAcc_gatherFold (cells : List (MpiCell ℝ)) :
    ∀ t : BTree ℝ, eraseAcc (cells.foldl gatherApplyCell t) = eraseAcc t := by
  induction cells with
  | nil => intro t; rfl
  | cons c cs ih =>
      intro t
      rw [List.foldl_cons, ih]
      exact eraseAcc_applyAt c.id (sinkApply c) (eraseAcc_sinkApply c) t

/-- **C9.**  A full gravity step never mutates any branch of the local tree
nor any body's position, mass or locality flag: erasing accelerations from
the stepped tree yields exactly the erased original, so branch ids,
positions, bounding boxes, masses, tree structure and all non-acceleration
body data are preserved, and only body accelerations (updated additively,
see the C2P and direct-sum update forms) change. -/
theorem gravity_step_frame (maxMass macangle : ℝ) (t : BTree ℝ) :
    eraseAcc (gravityStep maxMass macangle t) = eraseAcc t := by
  rw [gravityStep]
  exact eraseAcc_gatherFold _ t

/-- A cell built from a leaf and sent back into a C2C traversal of that same
leaf picks up no contribution: the same-box test fires before the MAC. -/
lemma computeCell_self_leaf (macangle m : ℝ) (i0 : ℕ) (pos bn bx : Point ℝ)
    (bs : List (Body ℝ)) (hm : m ≠ 0) :
    computeCell macangle (.leaf i0 pos bn bx m bs)
        (mpiCellOf (.leaf i0 pos bn bx m bs)) =
      mpiCellOf (.leaf i0 pos bn bx m bs) := by
  simp only [computeCell, mpiCellOf, posOf, bminOf, bmaxOf, idOf]
  rw [c2c_leaf, if_neg hm, if_pos ⟨pEq_refl bn, pEq_refl bx⟩]

/-- **C8.**  A single-process gravity step on a tree holding exactly one
body (the root is a leaf, the body sits at the root's center of mass) adds
zero to that body's acceleration: the resulting tree holds the body
unchanged. -/
theorem single_body_zero_acceleration (maxMass macangle m : ℝ) (i0 : ℕ)
    (pos bn bx : Point ℝ) (b : Body ℝ) (hb : b.isLocal = true)
    (_hp : pEq b.pos pos) :
    bodiesOf (gravityStep maxMass macangle (.leaf i0 pos bn bx m [b])) =
      [b] := by
  obtain ⟨bp, bm, ba, bl⟩ := b
  simp only [Body.isLocal] at hb
  subst hb
  by_cases hm : m = 0
  · rw [gravityStep, mpi_exchange_cells, traverseCells, if_pos hm]
    rfl
  · rw [gravityStep, mpi_exchange_cells, traverseCells, if_neg hm]
    simp only [List.map_cons, List.map_nil, List.foldl_cons, List.foldl_nil]
    rw [computeCell_self_leaf macangle m i0 pos bn bx [⟨bp, bm, ba, true⟩] hm]
    rw [gatherApplyCell]
    rw [show (mpiCellOf (BTree.leaf i0 pos bn bx m
      [⟨bp, bm, ba, true⟩])).id = i0 from rfl]
    rw [applyAt, if_pos rfl]
    simp only [sinkApply, mpiCellOf, posOf, bminOf, bmaxOf, idOf]
    by_cases hm2 : m ≤ 0
    · rw [sink_traversal_c2p, if_pos hm2, directPhase, if_pos hm2]
      rfl
    · rw [sink_traversal_c2p, if_neg hm2]
      simp only [List.map_cons, List.map_nil, List.filter_cons, List.filter_nil,
        gravAt_zero, zero_add, if_true]
      rw [directPhase, if_neg hm2]
      simp only [List.map_cons, List.map_nil, if_true]
      rw [directAdd_self_pos _ _ rfl]
      simp [bodiesOf]


/-- Witness for `single_body_zero_acceleration` at a concrete one-body
tree. -/
theorem single_body_zero_acceleration_witness :
    bodyW.isLocal = true ∧ pEq bodyW.pos (pt 0 0 0) ∧
      bodiesOf (gravityStep 1 1
        (.leaf 1 (pt 0 0 0) (pt 0 0 0) (pt 1 1 1) 1 [bodyW])) = [bodyW] :=
  ⟨rfl, pEq_refl _,
    single_body_zero_acceleration 1 1 1 1 (pt 0 0 0) (pt 0 0 0) (pt 1 1 1)
      bodyW rfl (pEq_refl _)⟩
